import Mathlib

/-!
# Verification of the socket-chat hub/client core

Shallow embedding of the Go sources (`hub.go`, `client.go`) of the
takara2314/socket-chat-sample repository: a websocket chat where a central
hub fans every inbound message out to all registered clients, and each
client runs a read pump and a write pump.

Conventions of the embedding:
* byte slices (`[]byte` messages) are modelled as `List Char`
  (all relevant operations are byte-wise);
* `time.Duration` values are `Nat` nanoseconds;
* Go channels are modelled by their buffer: a capacity (`Nat`) and, where
  the hub manipulates them, an explicit queue (`List`) plus a closed flag;
* the hub's `clients` map (`map[*Client]bool`, used as a set of pointers)
  is a duplicate-free `List ClientId` together with a map from client
  identity to the state of that client's `send` channel.
-/

namespace SocketChat

/-! ## Timing constants (client.go lines 16-29) -/

/-- `time.Second` in nanoseconds (Go `time.Duration` is int64 nanoseconds). -/
def second : Nat := 1000000000

/-- `writeWait = 10 * time.Second` — time allowed to write a message to the peer. -/
def writeWait : Nat := 10 * second

/-- `pongWait = 60 * time.Second` — time allowed to read the next pong. -/
def pongWait : Nat := 60 * second

/-- `pingPeriod = (pongWait * 9) / 10` — integer (nanosecond) arithmetic,
exactly as the Go constant expression computes it. -/
def pingPeriod : Nat := (pongWait * 9) / 10

/-- `maxMessageSize = 512`. -/
def maxMessageSize : Nat := 512

/-! ## Message normalization (client.go line 90)

`message = bytes.TrimSpace(bytes.Replace(message, newline, space, -1))`
with `newline = []byte{'\n'}` and `space = []byte{' '}`.

`bytes.Replace` with count `-1` and a single-byte old/new pattern replaces
every occurrence of the byte `'\n'` by the byte `' '`, i.e. it maps the
byte sequence pointwise. `bytes.TrimSpace` removes all leading and all
trailing white-space (per `unicode.IsSpace`; the relevant ASCII/Latin-1
characters are modelled). -/

/-- White space as `unicode.IsSpace` decides it on the Latin-1 range:
`'\t'`, `'\n'`, `'\v'`, `'\f'`, `'\r'`, `' '`, U+0085 (NEL), U+00A0 (NBSP). -/
def goIsSpace (c : Char) : Bool :=
  c = ' ' || c = '\t' || c = '\n' || c = '\u000B' || c = '\u000C' ||
  c = '\r' || c = '\u0085' || c = '\u00A0'

/-- `bytes.Replace(message, newline, space, -1)`: every `'\n'` byte becomes
a `' '` byte (single-byte pattern, unlimited count). -/
def replaceNewlineWithSpace : List Char → List Char
  | [] => []
  | c :: rest => (if c = '\n' then ' ' else c) :: replaceNewlineWithSpace rest

/-- Trailing-whitespace trim, the right half of `bytes.TrimSpace`. -/
def trimRight (s : List Char) : List Char :=
  (s.reverse.dropWhile goIsSpace).reverse

/-- `bytes.TrimSpace`: drop all leading and all trailing white space. -/
def trimSpace (s : List Char) : List Char :=
  trimRight (s.dropWhile goIsSpace)

/-- The read pump's normalization of one inbound frame (client.go line 90). -/
def normalizeMessage (m : List Char) : List Char :=
  trimSpace (replaceNewlineWithSpace m)

/-- Modelled from the spec (section 4.2 / claim C3): the normalization the
spec describes — strip the outer whitespace margin and convert each
internal newline *sequence* (maximal run of `'\n'`) to a *single*
delimiter. Used only to compare against `normalizeMessage`, which is the
code's behaviour. -/
def collapseRuns : Bool → List Char → List Char
  | _, [] => []
  | inRun, c :: rest =>
    if c = '\n' then
      if inRun then collapseRuns true rest
      else ' ' :: collapseRuns true rest
    else c :: collapseRuns false rest

/-- Modelled from the spec: spec-side normalization (trim, then collapse
each run of newlines to one space). -/
def specNormalize (m : List Char) : List Char :=
  collapseRuns false (trimSpace m)

/-! ## Write pump: drain-and-coalesce (client.go lines 121-137)

After dequeuing one `message` and writing it to the frame writer, the
write pump snapshots `n := len(c.send)` and then performs `n` iterations
of `w.Write(newline); w.Write(<-c.send)`. The channel buffer is modelled
as the list of currently queued messages; `acc` is the frame written so
far. Iterating with an empty buffer would block in Go; the model returns
the frame as-is then (unreachable when the counter is the snapshot of the
buffer length, which is what `writeFrame` below does). -/

def drainCoalesce : Nat → List (List Char) → List Char → List Char × List (List Char)
  | 0, q, acc => (acc, q)
  | _ + 1, [], acc => (acc, [])
  | n + 1, m :: q, acc => drainCoalesce n q (acc ++ '\n' :: m)

/-- One pass of the write pump's message branch: the frame that a single
`NextWriter` produces for the dequeued `first` message when `queued` is
the buffer content at the moment of the `len(c.send)` snapshot, together
with the buffer left behind. -/
def writeFrame (first : List Char) (queued : List (List Char)) :
    List Char × List (List Char) :=
  drainCoalesce queued.length queued first

/-! ## Connection entry point (client.go lines 148-168, `serveWs`)

`serveWs` upgrades the HTTP request; on failure it logs and returns before
any `Client` exists. On success it constructs the `Client` (with a send
channel of capacity 256), submits it on `hub.register`, and only then
starts `writePump` and `readPump` goroutines. The embedding records the
sequence of externally visible actions of one `serveWs` call; `upgradeOk`
tells whether `upgrader.Upgrade` succeeded. -/

inductive WsAction where
  | logUpgradeError
  | mkClient
  | registerClient
  | startWritePump
  | startReadPump
deriving DecidableEq, Repr

/-- Capacity of a client's `send` channel: `make(chan []byte, 256)`. -/
def sendChanCap : Nat := 256

def serveWs (upgradeOk : Bool) : List WsAction :=
  if upgradeOk then
    [WsAction.mkClient, WsAction.registerClient,
     WsAction.startWritePump, WsAction.startReadPump]
  else
    [WsAction.logUpgradeError]

/-! ## The hub (hub.go)

`Hub.clients` is a `map[*Client]bool` used as a set of client identities;
client identities are modelled as `Nat`. Each client's `send` channel
(capacity `sendChanCap`) is modelled by its buffered contents, a closed
flag, and a count of how many times `close` has been executed on it (to
state "closed exactly once"); the hub reaches it through `sendOf`. -/

abbrev ClientId := Nat

/-- State of one client's `send` channel as the hub manipulates it. -/
structure SendChan where
  buf : List (List Char)
  closed : Bool
  closeCount : Nat
deriving DecidableEq, Repr

/-- A fresh `make(chan []byte, 256)`: empty and open. -/
def SendChan.new : SendChan := ⟨[], false, 0⟩

/-- `close(client.send)`. -/
def SendChan.doClose (s : SendChan) : SendChan :=
  { s with closed := true, closeCount := s.closeCount + 1 }

/-- Hub state: the `clients` registry (list of the map's keys, no
duplicates by construction) and the per-client send-channel states. -/
structure Hub where
  clients : List ClientId
  sendOf : ClientId → SendChan

/-- `newHub` leaves `clients` empty; channel states are all fresh (a
client's channel exists only from its `serveWs`, but a fresh default is
harmless for identities never registered). -/
def newHub : Hub := ⟨[], fun _ => SendChan.new⟩

/-- Capacities of the hub's own channels as `newHub` makes them:
`make(chan []byte)`, `make(chan *Client)`, `make(chan *Client)` are all
unbuffered, capacity 0. -/
structure HubChanCaps where
  broadcastCap : Nat
  registerCap : Nat
  unregisterCap : Nat
deriving DecidableEq, Repr

def newHubCaps : HubChanCaps := ⟨0, 0, 0⟩

/-- Whether a blocking send on a channel with capacity `cap` and `pending`
buffered elements suspends the sender until a receiver is ready: it does
exactly when the buffer is full. -/
def blockingSendStalls (cap pending : Nat) : Bool := cap ≤ pending

/-- Pointwise update of the channel map. -/
def updSend (f : ClientId → SendChan) (c : ClientId) (v : SendChan) :
    ClientId → SendChan :=
  fun x => if x = c then v else f x

/-- The events `Hub.run`'s `select` dispatches on. -/
inductive Event where
  | reg (c : ClientId)
  | unreg (c : ClientId)
  | bcast (m : List Char)
deriving DecidableEq, Repr

/-- Result of one broadcast fan-out: the surviving registry, the updated
channel map, the clients evicted in this fan-out, and the number of
successful enqueues. -/
structure FanoutRes where
  survivors : List ClientId
  sendOf : ClientId → SendChan
  evicted : List ClientId
  enqueued : Nat

/-- The broadcast case of `Hub.run` (hub.go lines 48-58): iterate over the
registered clients; `select { case client.send <- message: default: ... }`
succeeds exactly when the send buffer has room (the hub never targets a
closed channel: closing and deletion from `clients` always go together),
otherwise the hub closes the channel and deletes the client. -/
def fanout (m : List Char) :
    List ClientId → (ClientId → SendChan) → FanoutRes
  | [], f => ⟨[], f, [], 0⟩
  | c :: rest, f =>
    let s := f c
    if s.buf.length < sendChanCap then
      let r := fanout m rest (updSend f c { s with buf := s.buf ++ [m] })
      ⟨c :: r.survivors, r.sendOf, r.evicted, r.enqueued + 1⟩
    else
      let r := fanout m rest (updSend f c s.doClose)
      ⟨r.survivors, r.sendOf, c :: r.evicted, r.enqueued⟩

/-- One iteration of `Hub.run`'s `select` (hub.go lines 37-61), returning
the next hub state and the clients evicted during this event. -/
def hubStep (h : Hub) : Event → Hub × List ClientId
  | Event.reg c =>
    (⟨if c ∈ h.clients then h.clients else c :: h.clients, h.sendOf⟩, [])
  | Event.unreg c =>
    if c ∈ h.clients then
      (⟨h.clients.erase c, updSend h.sendOf c (h.sendOf c).doClose⟩, [])
    else
      (h, [])
  | Event.bcast m =>
    let r := fanout m h.clients h.sendOf
    (⟨r.survivors, r.sendOf⟩, r.evicted)

/-- Run of `Hub.run` over a finite event sequence, accumulating the
eviction log. -/
def runEvents (h : Hub) : List Event → Hub × List ClientId
  | [] => (h, [])
  | e :: rest =>
    let r := hubStep h e
    let r2 := runEvents r.1 rest
    (r2.1, r.2 ++ r2.2)

/-- The read pump's loop body publishes one broadcast event per complete
inbound frame, carrying the normalized payload (client.go lines 80-92). -/
def readPumpBroadcasts (frames : List (List Char)) : List Event :=
  frames.map (fun f => Event.bcast (normalizeMessage f))

/-! ## Causally ordered event traces (for the registry-membership claim) -/

/-- Clients mentioned by register/unregister events of a trace. -/
def tracedClients (es : List Event) : List ClientId :=
  es.filterMap fun e =>
    match e with
    | Event.reg c => some c
    | Event.unreg c => some c
    | Event.bcast _ => none

/-- No `reg c` event occurs after an `unreg c` event. -/
def noRegAfterUnreg (c : ClientId) : List Event → Bool
  | [] => true
  | e :: rest =>
    (if e = Event.unreg c then !(decide (Event.reg c ∈ rest)) else true) &&
      noRegAfterUnreg c rest

/-- A trace is causally ordered for the registry claim: each client is
registered at most once, and never after its own deregistration (so a
client's register event precedes its deregister event and every broadcast
that targets it). -/
def causallyOrdered (es : List Event) : Prop :=
  ∀ c ∈ tracedClients es,
    es.count (Event.reg c) ≤ 1 ∧ noRegAfterUnreg c es = true

instance decCausallyOrdered (es : List Event) :
    Decidable (causallyOrdered es) :=
  List.decidableBAll _ _

/-! ## Concrete hub states used to instantiate the theorems -/

/-- Two clients; client 0's send buffer is at capacity, client 1's is empty. -/
def hubFull : Hub :=
  ⟨[0, 1], fun c => if c = 0 then ⟨List.replicate 256 [], false, 0⟩ else SendChan.new⟩

/-- Two clients, both with empty (non-full) send buffers. -/
def hubRoom : Hub := ⟨[0, 1], fun _ => SendChan.new⟩

/-- One client, id 5, with a fresh send channel. -/
def hubOne : Hub := ⟨[5], fun _ => SendChan.new⟩

/-! ## Theorems -/

/-- C8: the keepalive period is strictly below the read deadline and is
exactly 90% of it in integer (nanosecond) arithmetic: `pingPeriod * 10`
equals `pongWait * 9`, with no rounding (`pingPeriod` is exactly 54
seconds). -/
theorem ping_period_lt_pong_wait :
    pingPeriod < pongWait ∧ pingPeriod * 10 = pongWait * 9 ∧
      pingPeriod = 54 * second := by
  norm_num [pingPeriod, pongWait, second]

/-- C4 counterexample: the hub's channels are not unbounded — `newHub`
creates all three with capacity 0 (not even capacity 1), and a blocking
send into any of them stalls the sender even when nothing is pending,
until the hub is ready to receive. -/
theorem new_hub_chans_unbuffered_cex :
    blockingSendStalls newHubCaps.broadcastCap 0 = true ∧
    blockingSendStalls newHubCaps.registerCap 0 = true ∧
    blockingSendStalls newHubCaps.unregisterCap 0 = true ∧
    ¬ 1 ≤ newHubCaps.broadcastCap ∧
    ¬ 1 ≤ newHubCaps.registerCap ∧
    ¬ 1 ≤ newHubCaps.unregisterCap := by
  decide

/-- C4 amended: the hub's broadcast, register and unregister channels are
created unbuffered (capacity 0): a blocking send into them is never
refused, but it is a rendezvous that stalls the sending pump until the hub
receives; the bounded buffered queue is the per-client send channel, of
capacity 256. -/
theorem new_hub_chans_unbuffered :
    newHubCaps.broadcastCap = 0 ∧ newHubCaps.registerCap = 0 ∧
    newHubCaps.unregisterCap = 0 ∧
    (∀ pending : Nat, blockingSendStalls 0 pending = true) ∧
    sendChanCap = 256 := by
  refine ⟨rfl, rfl, rfl, fun pending => ?_, rfl⟩
  simp [blockingSendStalls]

/-- C9: on a successful upgrade, `serveWs` creates the client and submits
the registration before starting either pump; on upgrade failure it only
logs — no client is created, no registration occurs, and no pump starts. -/
theorem serve_ws_registers_before_pumps :
    (serveWs true).indexOf WsAction.registerClient
        < (serveWs true).indexOf WsAction.startWritePump ∧
    (serveWs true).indexOf WsAction.registerClient
        < (serveWs true).indexOf WsAction.startReadPump ∧
    (serveWs true).indexOf WsAction.mkClient
        < (serveWs true).indexOf WsAction.registerClient ∧
    WsAction.registerClient ∈ serveWs true ∧
    (serveWs false).count WsAction.mkClient = 0 ∧
    (serveWs false).count WsAction.registerClient = 0 ∧
    (serveWs false).count WsAction.startWritePump = 0 ∧
    (serveWs false).count WsAction.startReadPump = 0 ∧
    WsAction.logUpgradeError ∈ serveWs false := by
  decide

/-- The drain loop of the write pump, run for exactly the snapshot length
of the queue, appends every queued message to the frame, each preceded by
one newline, and empties the queue. -/
theorem drainCoalesce_eq (q : List (List Char)) (acc : List Char) :
    drainCoalesce q.length q acc
      = (acc ++ (q.map (fun x => '\n' :: x)).flatten, []) := by
  induction q generalizing acc with
  | nil => simp [drainCoalesce]
  | cons m q ih =>
    simp only [List.length_cons, drainCoalesce, List.map_cons, List.flatten]
    rw [ih]
    simp

/-- Length of a coalesced tail: each of the `n` queued messages
contributes its own length plus one delimiter byte. -/
theorem join_newline_length (q : List (List Char)) :
    ((q.map (fun x => '\n' :: x)).flatten).length
      = q.length + (q.map List.length).sum := by
  induction q with
  | nil => simp
  | cons m q ih =>
    simp [ih]
    omega

/-- Every byte of the output of the newline replacement differs from
`'\n'`: each newline was overwritten by a space. -/
theorem mem_replaceNewlineWithSpace {c : Char} :
    ∀ {m : List Char}, c ∈ replaceNewlineWithSpace m → c ≠ '\n'
  | [], h => absurd h (by simp [replaceNewlineWithSpace])
  | a :: rest, h => by
    simp only [replaceNewlineWithSpace, List.mem_cons] at h
    rcases h with h | h
    · subst h
      by_cases ha : a = '\n' <;> simp [ha]
    · exact mem_replaceNewlineWithSpace h

/-- Trimming only removes bytes. -/
theorem mem_trimSpace {c : Char} {s : List Char} (h : c ∈ trimSpace s) :
    c ∈ s := by
  have h1 : c ∈ (s.dropWhile goIsSpace).reverse.dropWhile goIsSpace := by
    simpa [trimSpace, trimRight] using h
  have h2 := (List.dropWhile_sublist goIsSpace).mem h1
  rw [List.mem_reverse] at h2
  exact (List.dropWhile_sublist goIsSpace).mem h2

/-- After `dropWhile`, the head (with a default that fails the predicate)
fails the predicate. -/
theorem headD_dropWhile (p : Char → Bool) (l : List Char) (d : Char)
    (hd : p d = false) : p ((l.dropWhile p).headD d) = false := by
  induction l with
  | nil => simpa [List.dropWhile]
  | cons c rest ih =>
    by_cases h : p c
    · simpa [List.dropWhile, h] using ih
    · simp [List.dropWhile, h]

/-- Right trimming keeps a prefix of its input. -/
theorem trimRight_prefix (s : List Char) : trimRight s <+: s := by
  have h := List.dropWhile_suffix (l := s.reverse) goIsSpace
  have h2 : (s.reverse.dropWhile goIsSpace).reverse <+: s.reverse.reverse :=
    List.reverse_prefix.mpr h
  simpa [trimRight] using h2

/-- A nonempty prefix has the same head. -/
theorem headD_eq_of_pref {w v : List Char} (h : w <+: v) (hw : w ≠ [])
    (d : Char) : w.headD d = v.headD d := by
  obtain ⟨t, rfl⟩ := h
  cases w with
  | nil => exact absurd rfl hw
  | cons a l => rfl

/-- The first byte of a trimmed message is not white space. -/
theorem headD_trimSpace (s : List Char) (d : Char) (hd : goIsSpace d = false) :
    goIsSpace ((trimSpace s).headD d) = false := by
  by_cases h : trimSpace s = []
  · simp [h, hd]
  · have hpre : trimSpace s <+: s.dropWhile goIsSpace := trimRight_prefix _
    rw [headD_eq_of_pref hpre h d]
    exact headD_dropWhile goIsSpace s d hd

/-- The last byte of a trimmed message is not white space. -/
theorem getLastD_trimSpace (s : List Char) (d : Char)
    (hd : goIsSpace d = false) :
    goIsSpace ((trimSpace s).getLastD d) = false := by
  have h1 : trimSpace s
      = ((s.dropWhile goIsSpace).reverse.dropWhile goIsSpace).reverse := rfl
  rw [h1, List.getLastD_eq_getLast?, List.getLast?_reverse,
    ← List.headD_eq_head?]
  exact headD_dropWhile goIsSpace _ d hd

/-- Newline replacement distributes over append. -/
theorem replaceNewlineWithSpace_append (xs ys : List Char) :
    replaceNewlineWithSpace (xs ++ ys)
      = replaceNewlineWithSpace xs ++ replaceNewlineWithSpace ys := by
  induction xs with
  | nil => rfl
  | cons a l ih => simp [replaceNewlineWithSpace, ih]

/-- A run of `k` newlines becomes a run of `k` spaces — one space per
newline byte, not a single delimiter for the whole run. -/
theorem replaceNewlineWithSpace_replicate (k : Nat) :
    replaceNewlineWithSpace (List.replicate k '\n')
      = List.replicate k ' ' := by
  induction k with
  | zero => rfl
  | succ n ih => simp [List.replicate, replaceNewlineWithSpace, ih]

/-- Trimming does not touch a message whose first and last bytes are not
white space. -/
theorem trimSpace_no_margin (a b : Char) (l : List Char)
    (ha : goIsSpace a = false) (hb : goIsSpace b = false) :
    trimSpace (a :: (l ++ [b])) = a :: (l ++ [b]) := by
  have h1 : (a :: (l ++ [b])).dropWhile goIsSpace = a :: (l ++ [b]) := by
    simp [List.dropWhile, ha]
  rw [trimSpace, h1, trimRight]
  have h2 : (a :: (l ++ [b])).reverse = b :: (l.reverse ++ [a]) := by
    simp
  rw [h2]
  have h3 : (b :: (l.reverse ++ [a])).dropWhile goIsSpace
      = b :: (l.reverse ++ [a]) := by
    simp [List.dropWhile, hb]
  rw [h3, ← h2, List.reverse_reverse]

/-- C3 counterexample: on the message `"a\n\nb"` the code delivers
`"a  b"` — the internal run of two newlines becomes two spaces — while a
normalization that converts internal newline sequences to a single
delimiter would deliver `"a b"`. -/
theorem normalize_message_run_cex :
    normalizeMessage ['a', '\n', '\n', 'b'] = ['a', ' ', ' ', 'b'] ∧
    specNormalize ['a', '\n', '\n', 'b'] = ['a', ' ', 'b'] ∧
    normalizeMessage ['a', '\n', '\n', 'b']
      ≠ specNormalize ['a', '\n', '\n', 'b'] := by
  decide

/-- C3 amended: the read pump normalizes each inbound message by replacing
every newline byte with one space byte and then stripping all leading and
trailing white space, and publishes exactly one fan-out event per inbound
message; the delivered form contains no newline, starts and ends with
non-white-space (when nonempty), and an internal run of `k` newlines is
delivered as `k` spaces (not collapsed to a single delimiter). -/
theorem normalize_message_amended (m : List Char) (frames : List (List Char)) :
    (readPumpBroadcasts frames).length = frames.length ∧
    (normalizeMessage m).count '\n' = 0 ∧
    goIsSpace ((normalizeMessage m).headD 'a') = false ∧
    goIsSpace ((normalizeMessage m).getLastD 'a') = false ∧
    (∀ k : Nat,
      normalizeMessage ('a' :: (List.replicate k '\n' ++ ['b']))
        = 'a' :: (List.replicate k ' ' ++ ['b'])) := by
  refine ⟨by simp [readPumpBroadcasts], ?_, ?_, ?_, ?_⟩
  · exact List.count_eq_zero.mpr fun hmem =>
      mem_replaceNewlineWithSpace (mem_trimSpace hmem) rfl
  · exact headD_trimSpace _ 'a' rfl
  · exact getLastD_trimSpace _ 'a' rfl
  · intro k
    have h1 : replaceNewlineWithSpace ('a' :: (List.replicate k '\n' ++ ['b']))
        = 'a' :: (List.replicate k ' ' ++ ['b']) := by
      have := replaceNewlineWithSpace_append (List.replicate k '\n') ['b']
      simp [replaceNewlineWithSpace, this, replaceNewlineWithSpace_replicate]
    rw [normalizeMessage, h1]
    exact trimSpace_no_margin 'a' 'b' (List.replicate k ' ') rfl rfl

/-- C7: when the write pump dequeues `first` and `queued` lists the `n`
messages already buffered at the moment of the `len(c.send)` snapshot, the
single frame written is `first` followed by those `n` messages in queue
order, each preceded by exactly one newline delimiter; the buffer is left
empty (all `n+1` messages ride in one frame), and the frame's size is the
sum of all `n+1` message sizes plus `n` delimiter bytes. -/
theorem write_frame_coalesces (first : List Char) (queued : List (List Char)) :
    (writeFrame first queued).1
        = first ++ (queued.map (fun x => '\n' :: x)).flatten ∧
    (writeFrame first queued).2 = [] ∧
    (writeFrame first queued).1.length
        = first.length + queued.length + (queued.map List.length).sum := by
  refine ⟨?_, ?_, ?_⟩
  · simp [writeFrame, drainCoalesce_eq]
  · simp [writeFrame, drainCoalesce_eq]
  · have h1 : (writeFrame first queued).1
        = first ++ (queued.map (fun x => '\n' :: x)).flatten := by
      simp [writeFrame, drainCoalesce_eq]
    rw [h1, List.length_append, join_newline_length]
    omega

/-! ### Fan-out lemmas -/

theorem updSend_same (f : ClientId → SendChan) (c : ClientId) (v : SendChan) :
    updSend f c v c = v := by
  simp [updSend]

theorem updSend_ne (f : ClientId → SendChan) {c d : ClientId} (v : SendChan)
    (h : c ≠ d) : updSend f d v c = f c := by
  simp [updSend, h]

theorem fanout_cons_pos (m : List Char) (d : ClientId) (rest : List ClientId)
    (f : ClientId → SendChan) (h : (f d).buf.length < sendChanCap) :
    fanout m (d :: rest) f =
      ⟨d :: (fanout m rest (updSend f d { f d with buf := (f d).buf ++ [m] })).survivors,
       (fanout m rest (updSend f d { f d with buf := (f d).buf ++ [m] })).sendOf,
       (fanout m rest (updSend f d { f d with buf := (f d).buf ++ [m] })).evicted,
       (fanout m rest (updSend f d { f d with buf := (f d).buf ++ [m] })).enqueued + 1⟩ := by
  simp [fanout, h]

theorem fanout_cons_neg (m : List Char) (d : ClientId) (rest : List ClientId)
    (f : ClientId → SendChan) (h : ¬ (f d).buf.length < sendChanCap) :
    fanout m (d :: rest) f =
      ⟨(fanout m rest (updSend f d (f d).doClose)).survivors,
       (fanout m rest (updSend f d (f d).doClose)).sendOf,
       d :: (fanout m rest (updSend f d (f d).doClose)).evicted,
       (fanout m rest (updSend f d (f d).doClose)).enqueued⟩ := by
  simp [fanout, h]

/-- A client the fan-out does not visit keeps its channel state. -/
theorem fanout_sendOf_not_mem (m : List Char) (l : List ClientId) :
    ∀ (f : ClientId → SendChan) {c : ClientId}, c ∉ l →
      (fanout m l f).sendOf c = f c := by
  induction l with
  | nil => intro f c _; rfl
  | cons d rest ih =>
    intro f c h
    rw [List.mem_cons] at h
    push_neg at h
    by_cases hroom : (f d).buf.length < sendChanCap
    · rw [fanout_cons_pos m d rest f hroom]
      rw [ih _ h.2]
      exact updSend_ne f _ h.1
    · rw [fanout_cons_neg m d rest f hroom]
      rw [ih _ h.2]
      exact updSend_ne f _ h.1

/-- Only visited (hence registered) clients get evicted. -/
theorem fanout_evicted_subset (m : List Char) (l : List ClientId) :
    ∀ (f : ClientId → SendChan) {c : ClientId},
      c ∈ (fanout m l f).evicted → c ∈ l := by
  induction l with
  | nil => intro f c h; simp [fanout] at h
  | cons d rest ih =>
    intro f c h
    by_cases hroom : (f d).buf.length < sendChanCap
    · rw [fanout_cons_pos m d rest f hroom] at h
      exact List.mem_cons_of_mem d (ih _ h)
    · rw [fanout_cons_neg m d rest f hroom] at h
      rcases List.mem_cons.mp h with h | h
      · exact h ▸ List.mem_cons_self d rest
      · exact List.mem_cons_of_mem d (ih _ h)

/-- The surviving registry is a sublist of the registry. -/
theorem fanout_survivors_sublist (m : List Char) (l : List ClientId) :
    ∀ (f : ClientId → SendChan), (fanout m l f).survivors.Sublist l := by
  induction l with
  | nil => intro f; simp [fanout]
  | cons d rest ih =>
    intro f
    by_cases hroom : (f d).buf.length < sendChanCap
    · rw [fanout_cons_pos m d rest f hroom]
      exact List.Sublist.cons₂ d (ih _)
    · rw [fanout_cons_neg m d rest f hroom]
      exact List.Sublist.cons d (ih _)

/-- With a duplicate-free registry, a client survives the fan-out exactly
when it was registered and not evicted by it. -/
theorem fanout_mem_survivors (m : List Char) (l : List ClientId) :
    ∀ (f : ClientId → SendChan), l.Nodup → ∀ (c : ClientId),
      (c ∈ (fanout m l f).survivors ↔
        c ∈ l ∧ c ∉ (fanout m l f).evicted) := by
  induction l with
  | nil => intro f _ c; simp [fanout]
  | cons d rest ih =>
    intro f hnd c
    rcases List.nodup_cons.mp hnd with ⟨hd, hrest⟩
    by_cases hroom : (f d).buf.length < sendChanCap
    · rw [fanout_cons_pos m d rest f hroom]
      dsimp only
      rw [List.mem_cons, List.mem_cons, ih _ hrest c]
      constructor
      · rintro (rfl | ⟨hcr, hce⟩)
        · exact ⟨Or.inl rfl, fun he => hd (fanout_evicted_subset m rest _ he)⟩
        · exact ⟨Or.inr hcr, hce⟩
      · rintro ⟨rfl | hcr, hce⟩
        · exact Or.inl rfl
        · exact Or.inr ⟨hcr, hce⟩
    · rw [fanout_cons_neg m d rest f hroom]
      dsimp only
      rw [List.mem_cons, List.mem_cons, ih _ hrest c]
      constructor
      · rintro ⟨hcr, hce⟩
        refine ⟨Or.inr hcr, fun he => ?_⟩
        rcases he with rfl | he
        · exact hd hcr
        · exact hce he
      · rintro ⟨rfl | hcr, hce⟩
        · simp at hce
        · exact ⟨hcr, fun he => hce (Or.inr he)⟩

/-- A registered client whose buffer is full when the broadcast arrives is
closed (exactly its old state with `doClose`) and evicted. -/
theorem fanout_sendOf_full (m : List Char) (l : List ClientId) :
    ∀ (f : ClientId → SendChan) {c : ClientId}, l.Nodup → c ∈ l →
      sendChanCap ≤ (f c).buf.length →
      (fanout m l f).sendOf c = (f c).doClose ∧
        c ∈ (fanout m l f).evicted := by
  induction l with
  | nil => intro f c _ hc _; simp at hc
  | cons d rest ih =>
    intro f c hnd hc hfull
    rcases List.nodup_cons.mp hnd with ⟨hd, hrest⟩
    rcases List.mem_cons.mp hc with rfl | hcr
    · have hroom : ¬ (f c).buf.length < sendChanCap := not_lt.mpr hfull
      rw [fanout_cons_neg m c rest f hroom]
      dsimp only
      rw [fanout_sendOf_not_mem m rest _ hd, updSend_same]
      exact ⟨rfl, List.mem_cons_self c _⟩
    · have hcd : c ≠ d := fun he => hd (he ▸ hcr)
      by_cases hroom : (f d).buf.length < sendChanCap
      · rw [fanout_cons_pos m d rest f hroom]
        dsimp only
        have hkeep := updSend_ne f (d := d)
          { f d with buf := (f d).buf ++ [m] } hcd
        have := ih (updSend f d { f d with buf := (f d).buf ++ [m] })
          hrest hcr (by rw [hkeep]; exact hfull)
        rw [hkeep] at this
        exact this
      · rw [fanout_cons_neg m d rest f hroom]
        dsimp only
        have hkeep := updSend_ne f (d := d) (f d).doClose hcd
        have := ih (updSend f d (f d).doClose)
          hrest hcr (by rw [hkeep]; exact hfull)
        rw [hkeep] at this
        exact ⟨this.1, List.mem_cons_of_mem d this.2⟩

/-- A registered client whose buffer has room receives exactly one copy of
the message, appended at the tail of its buffer, and survives. -/
theorem fanout_sendOf_room (m : List Char) (l : List ClientId) :
    ∀ (f : ClientId → SendChan) {c : ClientId}, l.Nodup → c ∈ l →
      (f c).buf.length < sendChanCap →
      (fanout m l f).sendOf c = { f c with buf := (f c).buf ++ [m] } ∧
        c ∈ (fanout m l f).survivors := by
  induction l with
  | nil => intro f c _ hc _; simp at hc
  | cons d rest ih =>
    intro f c hnd hc hroomc
    rcases List.nodup_cons.mp hnd with ⟨hd, hrest⟩
    rcases List.mem_cons.mp hc with rfl | hcr
    · rw [fanout_cons_pos m c rest f hroomc]
      dsimp only
      rw [fanout_sendOf_not_mem m rest _ hd, updSend_same]
      exact ⟨rfl, List.mem_cons_self c _⟩
    · have hcd : c ≠ d := fun he => hd (he ▸ hcr)
      by_cases hroom : (f d).buf.length < sendChanCap
      · rw [fanout_cons_pos m d rest f hroom]
        dsimp only
        have hkeep := updSend_ne f (d := d)
          { f d with buf := (f d).buf ++ [m] } hcd
        have := ih (updSend f d { f d with buf := (f d).buf ++ [m] })
          hrest hcr (by rw [hkeep]; exact hroomc)
        rw [hkeep] at this
        exact ⟨this.1, List.mem_cons_of_mem d this.2⟩
      · rw [fanout_cons_neg m d rest f hroom]
        dsimp only
        have hkeep := updSend_ne f (d := d) (f d).doClose hcd
        have := ih (updSend f d (f d).doClose)
          hrest hcr (by rw [hkeep]; exact hroomc)
        rw [hkeep] at this
        exact this

/-- When every registered client's buffer has room: nobody is evicted, the
registry is unchanged, and the number of successful enqueues is exactly
the number of registered clients. -/
theorem fanout_all_room (m : List Char) (l : List ClientId) :
    ∀ (f : ClientId → SendChan), l.Nodup →
      (∀ c ∈ l, (f c).buf.length < sendChanCap) →
      (fanout m l f).survivors = l ∧ (fanout m l f).evicted = [] ∧
        (fanout m l f).enqueued = l.length := by
  induction l with
  | nil => intro f _ _; simp [fanout]
  | cons d rest ih =>
    intro f hnd hall
    rcases List.nodup_cons.mp hnd with ⟨hd, hrest⟩
    have hroom : (f d).buf.length < sendChanCap := hall d (List.mem_cons_self d rest)
    rw [fanout_cons_pos m d rest f hroom]
    have hall2 : ∀ c ∈ rest,
        ((updSend f d { f d with buf := (f d).buf ++ [m] }) c).buf.length
          < sendChanCap := by
      intro c hcr
      have hcd : c ≠ d := fun he => hd (he ▸ hcr)
      rw [updSend_ne f _ hcd]
      exact hall c (List.mem_cons_of_mem d hcr)
    have := ih _ hrest hall2
    refine ⟨by rw [this.1], by rw [this.2.1], by rw [this.2.2]; simp⟩

/-- C1: on a broadcast, a registered client whose send buffer is at
capacity is evicted: it lands in the eviction list, leaves the registry,
its channel is closed with `close` executed exactly once (close count goes
up by one), the message is not buffered for it (its buffer is unchanged),
and any later broadcast neither touches its channel state nor re-admits
it. The fan-out itself is a total function of the registry — it never
waits on the full client. -/
theorem broadcast_evicts_full_client (h : Hub) (m : List Char) (c : ClientId)
    (hnd : h.clients.Nodup) (hc : c ∈ h.clients)
    (hfull : sendChanCap ≤ (h.sendOf c).buf.length) :
    c ∈ (hubStep h (Event.bcast m)).2 ∧
    c ∉ (hubStep h (Event.bcast m)).1.clients ∧
    ((hubStep h (Event.bcast m)).1.sendOf c).closed = true ∧
    ((hubStep h (Event.bcast m)).1.sendOf c).closeCount
        = (h.sendOf c).closeCount + 1 ∧
    ((hubStep h (Event.bcast m)).1.sendOf c).buf = (h.sendOf c).buf ∧
    (∀ m2 : List Char,
      (hubStep (hubStep h (Event.bcast m)).1 (Event.bcast m2)).1.sendOf c
          = (hubStep h (Event.bcast m)).1.sendOf c ∧
      c ∉ (hubStep (hubStep h (Event.bcast m)).1 (Event.bcast m2)).1.clients) := by
  obtain ⟨hclose, hev⟩ := fanout_sendOf_full m h.clients h.sendOf hnd hc hfull
  have hnotsur : c ∉ (fanout m h.clients h.sendOf).survivors := by
    rw [fanout_mem_survivors m h.clients h.sendOf hnd c]
    rintro ⟨-, hne⟩
    exact hne hev
  refine ⟨hev, hnotsur, ?_, ?_, ?_, ?_⟩
  · rw [show (hubStep h (Event.bcast m)).1.sendOf = (fanout m h.clients h.sendOf).sendOf from rfl,
      hclose]
    rfl
  · rw [show (hubStep h (Event.bcast m)).1.sendOf = (fanout m h.clients h.sendOf).sendOf from rfl,
      hclose]
    rfl
  · rw [show (hubStep h (Event.bcast m)).1.sendOf = (fanout m h.clients h.sendOf).sendOf from rfl,
      hclose]
    rfl
  · intro m2
    constructor
    · exact fanout_sendOf_not_mem m2 _ _ hnotsur
    · intro hmem
      exact hnotsur ((fanout_survivors_sublist m2 _ _).mem hmem)

set_option maxRecDepth 10000 in
theorem broadcast_evicts_full_client_witness :
    ((hubStep hubFull (Event.bcast ['x'])).1.sendOf 0).closeCount
        = (hubFull.sendOf 0).closeCount + 1 :=
  (broadcast_evicts_full_client hubFull ['x'] 0 (by decide) (by decide)
    (by simp [hubFull, sendChanCap])).2.2.2.1

/-- C2: broadcasting while every one of the `N` registered clients has
buffer room performs exactly `N` successful enqueues — one per registered
client, appending exactly one copy of the message to each client's buffer
(its count of the message rises by exactly one, so nobody gets a
duplicate) — evicts nobody, leaves the registry unchanged, and touches no
unregistered client's channel. The fan-out iterates over all registered
clients without excluding the message's origin, so a registered sender is
among the recipients (echo-to-self). -/
theorem broadcast_enqueues_once_per_client (h : Hub) (m : List Char)
    (hnd : h.clients.Nodup)
    (hall : ∀ c ∈ h.clients, (h.sendOf c).buf.length < sendChanCap) :
    (fanout m h.clients h.sendOf).enqueued = h.clients.length ∧
    (hubStep h (Event.bcast m)).1.clients = h.clients ∧
    (hubStep h (Event.bcast m)).2 = [] ∧
    (∀ c ∈ h.clients,
      ((hubStep h (Event.bcast m)).1.sendOf c).buf = (h.sendOf c).buf ++ [m] ∧
      ((hubStep h (Event.bcast m)).1.sendOf c).buf.count m
          = (h.sendOf c).buf.count m + 1) ∧
    (∀ c, c ∉ h.clients → (hubStep h (Event.bcast m)).1.sendOf c = h.sendOf c) := by
  obtain ⟨hsur, hev, henq⟩ := fanout_all_room m h.clients h.sendOf hnd hall
  refine ⟨henq, hsur, hev, ?_, ?_⟩
  · intro c hc
    have hbuf : ((hubStep h (Event.bcast m)).1.sendOf c).buf
        = (h.sendOf c).buf ++ [m] := by
      rw [show (hubStep h (Event.bcast m)).1.sendOf = (fanout m h.clients h.sendOf).sendOf from rfl,
        (fanout_sendOf_room m h.clients h.sendOf hnd hc (hall c hc)).1]
    refine ⟨hbuf, ?_⟩
    rw [hbuf]
    simp
  · intro c hc
    exact fanout_sendOf_not_mem m _ _ hc

theorem broadcast_enqueues_once_per_client_witness :
    (fanout ['h', 'i'] hubRoom.clients hubRoom.sendOf).enqueued
        = hubRoom.clients.length :=
  (broadcast_enqueues_once_per_client hubRoom ['h', 'i'] (by decide)
    (by decide)).1

/-- C6: deregistering a client that is absent from the registry leaves the
hub state literally unchanged and evicts nobody; in particular after a
first deregistration removes a client and closes its channel exactly once,
a second deregistration of the same client is a no-op — no further close,
no registry change. -/
theorem unregister_absent_noop (h : Hub) (c : ClientId)
    (hnd : h.clients.Nodup) :
    (c ∉ h.clients → hubStep h (Event.unreg c) = (h, [])) ∧
    (c ∈ h.clients →
      c ∉ (hubStep h (Event.unreg c)).1.clients ∧
      ((hubStep h (Event.unreg c)).1.sendOf c).closeCount
          = (h.sendOf c).closeCount + 1 ∧
      hubStep (hubStep h (Event.unreg c)).1 (Event.unreg c)
          = ((hubStep h (Event.unreg c)).1, [])) := by
  constructor
  · intro hab
    simp [hubStep, hab]
  · intro hc
    have h1 : (hubStep h (Event.unreg c)).1
        = ⟨h.clients.erase c, updSend h.sendOf c (h.sendOf c).doClose⟩ := by
      simp [hubStep, hc]
    have h2 : c ∉ h.clients.erase c := hnd.not_mem_erase
    refine ⟨by rw [h1]; exact h2, ?_, ?_⟩
    · rw [h1]
      dsimp only
      rw [updSend_same]
      rfl
    · rw [h1]
      simp [hubStep, h2]

theorem unregister_absent_noop_witness :
    ((hubStep hubOne (Event.unreg 5)).1.sendOf 5).closeCount
        = (hubOne.sendOf 5).closeCount + 1 :=
  ((unregister_absent_noop hubOne 5 (by decide)).2 (by decide)).2.1

/-- C10: a client evicted during a broadcast for a full buffer never
receives the triggering message — its buffer is left exactly as it was
(in particular the message is absent from it if it was not already there)
while its channel is closed; the message lands only in the buffers of
registered clients that had room, appended once each. -/
theorem evicted_client_never_receives (h : Hub) (m : List Char)
    (c : ClientId) (hnd : h.clients.Nodup) (hc : c ∈ h.clients)
    (hfull : sendChanCap ≤ (h.sendOf c).buf.length)
    (hnm : m ∉ (h.sendOf c).buf) :
    ((hubStep h (Event.bcast m)).1.sendOf c).buf = (h.sendOf c).buf ∧
    m ∉ ((hubStep h (Event.bcast m)).1.sendOf c).buf ∧
    ((hubStep h (Event.bcast m)).1.sendOf c).closed = true ∧
    (∀ d ∈ h.clients, (h.sendOf d).buf.length < sendChanCap →
      ((hubStep h (Event.bcast m)).1.sendOf d).buf
          = (h.sendOf d).buf ++ [m]) := by
  obtain ⟨hclose, -⟩ := fanout_sendOf_full m h.clients h.sendOf hnd hc hfull
  have hbuf : ((hubStep h (Event.bcast m)).1.sendOf c).buf
      = (h.sendOf c).buf := by
    rw [show (hubStep h (Event.bcast m)).1.sendOf = (fanout m h.clients h.sendOf).sendOf from rfl,
      hclose]
    rfl
  refine ⟨hbuf, by rw [hbuf]; exact hnm, ?_, ?_⟩
  · rw [show (hubStep h (Event.bcast m)).1.sendOf = (fanout m h.clients h.sendOf).sendOf from rfl,
      hclose]
    rfl
  · intro d hd hroom
    rw [show (hubStep h (Event.bcast m)).1.sendOf = (fanout m h.clients h.sendOf).sendOf from rfl,
      (fanout_sendOf_room m h.clients h.sendOf hnd hd hroom).1]

set_option maxRecDepth 10000 in
theorem evicted_client_never_receives_witness :
    ((hubStep hubFull (Event.bcast ['x'])).1.sendOf 1).buf
        = (hubFull.sendOf 1).buf ++ [['x']] :=
  (evicted_client_never_receives hubFull ['x'] 0 (by decide) (by decide)
      (by simp [hubFull, sendChanCap]) (by simp [hubFull])).2.2.2
    1 (by decide) (by decide)

/-! ### Registry membership across event sequences (C5) -/

theorem runEvents_cons (h : Hub) (e : Event) (rest : List Event) :
    runEvents h (e :: rest)
      = ((runEvents (hubStep h e).1 rest).1,
         (hubStep h e).2 ++ (runEvents (hubStep h e).1 rest).2) := rfl

/-- Every `hubStep` keeps the registry duplicate-free. -/
theorem hubStep_nodup (h : Hub) (e : Event) (hnd : h.clients.Nodup) :
    (hubStep h e).1.clients.Nodup := by
  cases e with
  | reg c =>
    by_cases hc : c ∈ h.clients
    · simpa [hubStep, hc] using hnd
    · simpa [hubStep, hc] using List.nodup_cons.mpr ⟨hc, hnd⟩
  | unreg c =>
    by_cases hc : c ∈ h.clients
    · simpa [hubStep, hc] using hnd.erase c
    · simpa [hubStep, hc] using hnd
  | bcast m =>
    exact (fanout_survivors_sublist m h.clients h.sendOf).nodup hnd

/-- A client in the registry after a step was already registered, unless
the step was its own registration. -/
theorem hubStep_clients_sub (h : Hub) (e : Event) :
    ∀ x ∈ (hubStep h e).1.clients, x ∈ h.clients ∨ e = Event.reg x := by
  intro x hx
  cases e with
  | reg c =>
    by_cases hc : c ∈ h.clients
    · simp only [hubStep, if_pos hc] at hx
      exact Or.inl hx
    · simp only [hubStep, if_neg hc] at hx
      rcases List.mem_cons.mp hx with rfl | hx
      · exact Or.inr rfl
      · exact Or.inl hx
  | unreg c =>
    by_cases hc : c ∈ h.clients
    · simp only [hubStep, if_pos hc] at hx
      exact Or.inl (List.mem_of_mem_erase hx)
    · simp only [hubStep, if_neg hc] at hx
      exact Or.inl hx
  | bcast m =>
    exact Or.inl ((fanout_survivors_sublist m h.clients h.sendOf).mem hx)

/-- A registered client is among the traced clients of any trace holding
one of its register events. -/
theorem reg_mem_tracedClients {c : ClientId} {es : List Event}
    (h : Event.reg c ∈ es) : c ∈ tracedClients es :=
  List.mem_filterMap.mpr ⟨Event.reg c, h, rfl⟩

theorem unreg_mem_tracedClients {c : ClientId} {es : List Event}
    (h : Event.unreg c ∈ es) : c ∈ tracedClients es :=
  List.mem_filterMap.mpr ⟨Event.unreg c, h, rfl⟩

/-- Causal ordering passes to the tail of a trace. -/
theorem causallyOrdered_tail {e : Event} {es : List Event}
    (h : causallyOrdered (e :: es)) : causallyOrdered es := by
  intro c hc
  have hc2 : c ∈ tracedClients (e :: es) := by
    obtain ⟨a, ha, hfa⟩ := List.mem_filterMap.mp hc
    exact List.mem_filterMap.mpr ⟨a, List.mem_cons_of_mem e ha, hfa⟩
  obtain ⟨hcount, hnra⟩ := h c hc2
  refine ⟨le_trans ?_ hcount, ?_⟩
  · simp [List.count_cons]
  · simp only [noRegAfterUnreg, Bool.and_eq_true] at hnra
    exact hnra.2

/-- In a causally ordered trace starting with `reg a`, the client `a` is
never registered again. -/
theorem causal_reg_head {a : ClientId} {es : List Event}
    (h : causallyOrdered (Event.reg a :: es)) : Event.reg a ∉ es := by
  have ha : a ∈ tracedClients (Event.reg a :: es) :=
    reg_mem_tracedClients (List.mem_cons_self _ _)
  have hcount := (h a ha).1
  have h0 : es.count (Event.reg a) = 0 := by
    simp [List.count_cons] at hcount
    omega
  exact List.count_eq_zero.mp h0

/-- In a causally ordered trace starting with `unreg a`, the client `a` is
never registered afterwards. -/
theorem causal_unreg_head {a : ClientId} {es : List Event}
    (h : causallyOrdered (Event.unreg a :: es)) : Event.reg a ∉ es := by
  have ha : a ∈ tracedClients (Event.unreg a :: es) :=
    unreg_mem_tracedClients (List.mem_cons_self _ _)
  have hnra := (h a ha).2
  simp only [noRegAfterUnreg, Bool.and_eq_true, if_pos rfl] at hnra
  simpa using hnra.1

/-- Relative registry-membership invariant of the dispatch loop: starting
from a duplicate-free registry none of whose members is re-registered by
the (causally ordered) trace, a client ends up registered exactly when it
was registered initially or registered by the trace, and the trace neither
deregistered nor evicted it. -/
theorem runEvents_mem_clients (es : List Event) :
    ∀ (h : Hub), h.clients.Nodup →
      (∀ x ∈ h.clients, Event.reg x ∉ es) →
      causallyOrdered es →
      ∀ c : ClientId,
        (c ∈ (runEvents h es).1.clients ↔
          ((Event.reg c ∈ es ∨ c ∈ h.clients) ∧
            Event.unreg c ∉ es ∧ c ∉ (runEvents h es).2)) := by
  induction es with
  | nil =>
    intro h _ _ _ c
    simp [runEvents]
  | cons e rest ih =>
    intro h hnd hreg hco c
    have hco2 := causallyOrdered_tail hco
    have hnd2 := hubStep_nodup h e hnd
    cases e with
    | reg a =>
      have hreg2 : ∀ x ∈ (hubStep h (Event.reg a)).1.clients,
          Event.reg x ∉ rest := by
        intro x hx
        rcases hubStep_clients_sub h (Event.reg a) x hx with hx2 | hx2
        · exact fun hm => hreg x hx2 (List.mem_cons_of_mem _ hm)
        · cases hx2
          exact causal_reg_head hco
      rw [runEvents_cons]
      dsimp only
      rw [ih _ hnd2 hreg2 hco2 c]
      have hstep : (hubStep h (Event.reg a)).2 = [] := rfl
      have h1 : Event.reg c ∈ Event.reg a :: rest ↔
          (c = a ∨ Event.reg c ∈ rest) := by simp
      have h2 : Event.unreg c ∈ Event.reg a :: rest ↔
          Event.unreg c ∈ rest := by simp
      rw [hstep, List.nil_append, h1, h2]
      by_cases hmem : a ∈ h.clients
      · have hclients : (hubStep h (Event.reg a)).1.clients = h.clients := by
          simp [hubStep, hmem]
        rw [hclients]
        have haux : c = a → c ∈ h.clients := fun hh => hh ▸ hmem
        tauto
      · have hclients : (hubStep h (Event.reg a)).1.clients
            = a :: h.clients := by
          simp [hubStep, hmem]
        rw [hclients, List.mem_cons]
        tauto
    | unreg a =>
      have hreg2 : ∀ x ∈ (hubStep h (Event.unreg a)).1.clients,
          Event.reg x ∉ rest := by
        intro x hx
        rcases hubStep_clients_sub h (Event.unreg a) x hx with hx2 | hx2
        · exact fun hm => hreg x hx2 (List.mem_cons_of_mem _ hm)
        · exact Event.noConfusion hx2
      rw [runEvents_cons]
      dsimp only
      rw [ih _ hnd2 hreg2 hco2 c]
      have hstep : (hubStep h (Event.unreg a)).2 = [] := by
        by_cases hmem : a ∈ h.clients <;> simp [hubStep, hmem]
      have h1 : Event.reg c ∈ Event.unreg a :: rest ↔
          Event.reg c ∈ rest := by simp
      have h2 : Event.unreg c ∈ Event.unreg a :: rest ↔
          (c = a ∨ Event.unreg c ∈ rest) := by simp
      rw [hstep, List.nil_append, h1, h2]
      by_cases hca : c = a
      · subst hca
        have hnotreg : Event.reg c ∉ rest := causal_unreg_head hco
        have hnotmem : c ∉ (hubStep h (Event.unreg c)).1.clients := by
          by_cases hmem : c ∈ h.clients
          · have he : (hubStep h (Event.unreg c)).1.clients
                = h.clients.erase c := by
              simp [hubStep, hmem]
            rw [he]
            exact hnd.not_mem_erase
          · have he : (hubStep h (Event.unreg c)).1.clients = h.clients := by
              simp [hubStep, hmem]
            rw [he]
            exact hmem
        constructor
        · rintro ⟨hin, -, -⟩
          rcases hin with hin | hin
          · exact absurd hin hnotreg
          · exact absurd hin hnotmem
        · rintro ⟨-, hun, -⟩
          exact absurd (Or.inl rfl) hun
      · have hclients : (c ∈ (hubStep h (Event.unreg a)).1.clients ↔
            c ∈ h.clients) := by
          by_cases hmem : a ∈ h.clients
          · have he : (hubStep h (Event.unreg a)).1.clients
                = h.clients.erase a := by
              simp [hubStep, hmem]
            rw [he]
            exact List.mem_erase_of_ne hca
          · have he : (hubStep h (Event.unreg a)).1.clients = h.clients := by
              simp [hubStep, hmem]
            rw [he]
        rw [hclients]
        tauto
    | bcast m =>
      have hreg2 : ∀ x ∈ (hubStep h (Event.bcast m)).1.clients,
          Event.reg x ∉ rest := by
        intro x hx
        rcases hubStep_clients_sub h (Event.bcast m) x hx with hx2 | hx2
        · exact fun hm => hreg x hx2 (List.mem_cons_of_mem _ hm)
        · exact Event.noConfusion hx2
      rw [runEvents_cons]
      dsimp only
      rw [ih _ hnd2 hreg2 hco2 c]
      have hstep : (hubStep h (Event.bcast m)).2
          = (fanout m h.clients h.sendOf).evicted := rfl
      have hclients : (hubStep h (Event.bcast m)).1.clients
          = (fanout m h.clients h.sendOf).survivors := rfl
      have h1 : Event.reg c ∈ Event.bcast m :: rest ↔
          Event.reg c ∈ rest := by simp
      have h2 : Event.unreg c ∈ Event.bcast m :: rest ↔
          Event.unreg c ∈ rest := by simp
      rw [hstep, hclients, h1, h2,
        fanout_mem_survivors m h.clients h.sendOf hnd c, List.mem_append]
      have hkey : c ∈ (fanout m h.clients h.sendOf).evicted →
          Event.reg c ∉ rest := by
        intro he hm
        exact hreg c (fanout_evicted_subset m h.clients h.sendOf he)
          (List.mem_cons_of_mem _ hm)
      tauto

/-- C5: starting from the fresh hub, for every causally ordered event
trace (each client registered at most once and never after its own
deregistration, so a client's register event precedes its deregister event
and every broadcast that targets it), final registry membership is exactly:
registered by the trace, minus deregistered, minus evicted during a
broadcast — whatever the interleaving. -/
theorem hub_registry_membership (es : List Event)
    (hco : causallyOrdered es) (c : ClientId) :
    c ∈ (runEvents newHub es).1.clients ↔
      (Event.reg c ∈ es ∧ Event.unreg c ∉ es ∧
        c ∉ (runEvents newHub es).2) := by
  have h := runEvents_mem_clients es newHub (by simp [newHub])
    (by simp [newHub]) hco c
  simpa [newHub] using h

theorem hub_registry_membership_witness :
    1 ∈ (runEvents newHub
        [Event.reg 0, Event.reg 1, Event.unreg 0]).1.clients ↔
      (Event.reg 1 ∈ [Event.reg 0, Event.reg 1, Event.unreg 0] ∧
        Event.unreg 1 ∉ [Event.reg 0, Event.reg 1, Event.unreg 0] ∧
        1 ∉ (runEvents newHub [Event.reg 0, Event.reg 1, Event.unreg 0]).2) :=
  hub_registry_membership [Event.reg 0, Event.reg 1, Event.unreg 0]
    (by decide) 1

end SocketChat
